import Mathlib

/-!
Verification of the Pratt expression engine (`src/src/pratt.rs`).

This file gives a shallow embedding of the operator-precedence (Pratt)
expression engine and proves the behavioural claims about it.

The input cursor is embedded as an explicit position (`Nat`) into a fixed
token list; `inp.save()` corresponds to remembering the current position and
`inp.rewind(cp)` to continuing from the remembered one.  A matcher is a pure
function from (input, position) to either its own error value or a produced
value together with the advanced position.  The recursion and looping of
the original code is
embedded with an explicit fuel argument: `none` means the computation did not
finish within the given fuel.
-/

/-- Modelled from the spec: the `Strength` type of the `ops` module (which is
not part of the sources).  An ordered binding power: a declared operator
level `L` is represented by the even value `2 * L`, and the strength
"strictly tighter than level `L` but weaker than level `L + 1`" by the odd
value `2 * L + 1`.  Comparison is total, as the spec requires. -/
abbrev Strength := Nat

/-- Modelled from the spec: `Strength::is_lt` against an optional threshold:
the sentinel `none` compares as weaker than every concrete strength, so
nothing is "less than" the unconstrained sentinel. -/
def strengthIsLt (s : Strength) (o : Option Strength) : Bool :=
  match o with
  | none => false
  | some t => decide (s < t)

/-- Modelled from the spec: `Precedence`, a pair of strengths — the binding
power presented to an enclosing call (`strength_left`) and the threshold
passed to the recursive parse of the right operand (`strength_right`). -/
structure Precedence where
  strength_left : Strength
  strength_right : Strength
deriving Repr, DecidableEq

/-- Modelled from the spec: the precedence produced by `left_infix(_, s, _)`
(ops.rs is not part of the sources): `strength_left` is the declared level
and `strength_right` is strictly tighter than it. -/
def leftInfixPrec (s : Nat) : Precedence :=
  ⟨2 * s, 2 * s + 1⟩

/-- Modelled from the spec: the precedence produced by `right_infix(_, s, _)`:
the right-recursion threshold equals the declared level. -/
def rightInfixPrec (s : Nat) : Precedence :=
  ⟨2 * s, 2 * s⟩

/-- Modelled from the spec: the precedence produced by `prefix(_, s, _)`:
only `strength_right` (the declared level) is meaningful. -/
def prefixPrec (s : Nat) : Precedence :=
  ⟨2 * s, 2 * s⟩

/-- Modelled from the spec: the execution-mode capability (`private::Mode`
with its `Check`/`Emit` instances is not part of the sources).  `Out` is the
output type of the mode for expression values, `wrap` injects a value produced by
a sub-matcher, `map` applies a prefix builder and `combine` an infix
builder. -/
structure PMode (O : Type) where
  Out : Type
  wrap : O → Out
  map : Out → (O → O) → Out
  combine : Out → Out → (O → O → O) → Out

/-- Modelled from the spec: construct mode — values are materialized and the
builders really run. -/
abbrev Emit (O : Type) : PMode O :=
  { Out := O
    wrap := fun v => v
    map := fun v f => f v
    combine := fun l r f => f l r }

/-- Modelled from the spec: validate mode — no expression value is
materialized, combining is a no-op. -/
abbrev Check (O : Type) : PMode O :=
  { Out := Unit
    wrap := fun _ => ()
    map := fun _ _ => ()
    combine := fun _ _ _ => () }

/-- The result of running a matcher at a position: either the own failure of
the matcher
error, or a value together with the advanced cursor position. -/
abbrev MRes (Err α : Type) := Except Err (α × Nat)

/-- An external matcher (atom matcher or operator table), always given by its
construct-mode semantics: a pure function from input and position to a
result. -/
abbrev Matcher (Tok Err α : Type) := List Tok → Nat → MRes Err α

/-- The `Pratt` composite parser of `src/src/pratt.rs` (no prefix operators):
an atom matcher together with an infix operator table yielding a
`PrattOpOutput` (precedence plus infix builder). -/
structure Pratt (Tok Err O : Type) where
  atom : Matcher Tok Err O
  infix_ops : Matcher Tok Err (Precedence × (O → O → O))

/-- The `PrefixPratt` composite parser of `src/src/pratt.rs`: additionally a
prefix operator table yielding a precedence plus prefix builder. -/
structure PrefixPratt (Tok Err O : Type) where
  atom : Matcher Tok Err O
  prefix_ops : Matcher Tok Err (Precedence × (O → O))
  infix_ops : Matcher Tok Err (Precedence × (O → O → O))

/-- One recursive engine for `Pratt::pratt_parse` (src/src/pratt.rs lines
180-208).  The state `.inl pos` is a fresh `pratt_parse(min_strength)` call
about to parse its leading atom at `pos`; the state `.inr (left, pos)` is
the infix loop holding the accumulated left value at `pos`.  Saving the
cursor before the operator attempt and rewinding on a soft failure is
embedded by returning the saved position `pos` itself.  Fuel exhaustion is
`none`. -/
def Pratt.engine {Tok Err O : Type} (P : Pratt Tok Err O) (M : PMode O) :
    Nat → Option Strength → List Tok → (Nat ⊕ (M.Out × Nat)) →
      Option (Except Err (M.Out × Nat))
  | 0, _, _, _ => none
  | fuel + 1, minStrength, inp, .inl pos =>
    match P.atom inp pos with
    | .error e => some (.error e)
    | .ok (v, pos1) => Pratt.engine P M fuel minStrength inp (.inr (M.wrap v, pos1))
  | fuel + 1, minStrength, inp, .inr (left, pos) =>
    match P.infix_ops inp pos with
    | .error _ => some (.ok (left, pos))
    | .ok ((prec, build), pos1) =>
      if strengthIsLt prec.strength_left minStrength then some (.ok (left, pos))
      else
        match Pratt.engine P M fuel (some prec.strength_right) inp (.inl pos1) with
        | none => none
        | some (.error e) => some (.error e)
        | some (.ok (right, pos2)) =>
          Pratt.engine P M fuel minStrength inp (.inr (M.combine left right build, pos2))

/-- The function `Pratt::pratt_parse` proper: enter the engine in the
fresh-call state. -/
def Pratt.pratt_parse {Tok Err O : Type} (P : Pratt Tok Err O) (M : PMode O)
    (fuel : Nat) (minStrength : Option Strength) (inp : List Tok) (pos : Nat) :
    Option (Except Err (M.Out × Nat)) :=
  Pratt.engine P M fuel minStrength inp (.inl pos)

/-- The infix loop of `Pratt::pratt_parse` (lines 189-207), with an
accumulated left value. -/
def Pratt.infixLoop {Tok Err O : Type} (P : Pratt Tok Err O) (M : PMode O)
    (fuel : Nat) (minStrength : Option Strength) (inp : List Tok)
    (left : M.Out) (pos : Nat) : Option (Except Err (M.Out × Nat)) :=
  Pratt.engine P M fuel minStrength inp (.inr (left, pos))

/-- The entry point `Pratt::go` (lines 219-224): it always starts the recursion
with the unconstrained threshold `None`. -/
def Pratt.go {Tok Err O : Type} (P : Pratt Tok Err O) (M : PMode O)
    (fuel : Nat) (inp : List Tok) (pos : Nat) :
    Option (Except Err (M.Out × Nat)) :=
  P.pratt_parse M fuel none inp pos

/-- One recursive engine for `PrefixPratt::pratt_parse` (src/src/pratt.rs
lines 80-116): a fresh call first attempts the prefix table unconditionally
(in construct mode, as the source does with `go::<Emit>`); on a match it
parses the operand at the `strength_right` of the operator and applies the prefix
builder through `M::map`; otherwise it rewinds and parses one atom.  The
infix loop is identical to the plain variant. -/
def PrefixPratt.engine {Tok Err O : Type} (P : PrefixPratt Tok Err O) (M : PMode O) :
    Nat → Option Strength → List Tok → (Nat ⊕ (M.Out × Nat)) →
      Option (Except Err (M.Out × Nat))
  | 0, _, _, _ => none
  | fuel + 1, minStrength, inp, .inl pos =>
    match P.prefix_ops inp pos with
    | .ok ((prec, build), pos1) =>
      match PrefixPratt.engine P M fuel (some prec.strength_right) inp (.inl pos1) with
      | none => none
      | some (.error e) => some (.error e)
      | some (.ok (right, pos2)) =>
        PrefixPratt.engine P M fuel minStrength inp (.inr (M.map right build, pos2))
    | .error _ =>
      match P.atom inp pos with
      | .error e => some (.error e)
      | .ok (v, pos1) => PrefixPratt.engine P M fuel minStrength inp (.inr (M.wrap v, pos1))
  | fuel + 1, minStrength, inp, .inr (left, pos) =>
    match P.infix_ops inp pos with
    | .error _ => some (.ok (left, pos))
    | .ok ((prec, build), pos1) =>
      if strengthIsLt prec.strength_left minStrength then some (.ok (left, pos))
      else
        match PrefixPratt.engine P M fuel (some prec.strength_right) inp (.inl pos1) with
        | none => none
        | some (.error e) => some (.error e)
        | some (.ok (right, pos2)) =>
          PrefixPratt.engine P M fuel minStrength inp (.inr (M.combine left right build, pos2))

/-- The function `PrefixPratt::pratt_parse` proper. -/
def PrefixPratt.pratt_parse {Tok Err O : Type} (P : PrefixPratt Tok Err O) (M : PMode O)
    (fuel : Nat) (minStrength : Option Strength) (inp : List Tok) (pos : Nat) :
    Option (Except Err (M.Out × Nat)) :=
  PrefixPratt.engine P M fuel minStrength inp (.inl pos)

/-- The infix loop of `PrefixPratt::pratt_parse` (lines 97-115). -/
def PrefixPratt.infixLoop {Tok Err O : Type} (P : PrefixPratt Tok Err O) (M : PMode O)
    (fuel : Nat) (minStrength : Option Strength) (inp : List Tok)
    (left : M.Out) (pos : Nat) : Option (Except Err (M.Out × Nat)) :=
  PrefixPratt.engine P M fuel minStrength inp (.inr (left, pos))

/-- The `go` of `PrefixPratt` (lines 129-134): entry with threshold `None`. -/
def PrefixPratt.go {Tok Err O : Type} (P : PrefixPratt Tok Err O) (M : PMode O)
    (fuel : Nat) (inp : List Tok) (pos : Nat) :
    Option (Except Err (M.Out × Nat)) :=
  P.pratt_parse M fuel none inp pos

/-! ## The arithmetic instance of the tests (src/src/pratt.rs lines 229-368)

Characters are the tokens, the atom matcher is `text::int(10)` mapped into
`Expr::Literal`, and the operator tables are the `choice`s of the tests:
`+`/`-` left-associative at strength 0, `*`/`/` right-associative at
strength 1, and prefix `-`/`!` at strength 1 (both built with `Negate`, as
in the test). -/

/-- The expression type of the tests. -/
inductive Expr where
  | literal (n : Int)
  | not (e : Expr)
  | negate (e : Expr)
  | add (l r : Expr)
  | sub (l r : Expr)
  | mul (l r : Expr)
  | div (l r : Expr)
deriving Repr, DecidableEq

/-- The shape of the `Simple` errors produced by the test matchers:
`expected_found(None, found, span)`. -/
structure SimpleErr where
  found : Option Char
  spanStart : Nat
  spanEnd : Nat
deriving Repr, DecidableEq

/-- Numeric value of a list of decimal digit characters. -/
def digitsVal (ds : List Char) : Nat :=
  ds.foldl (fun a c => 10 * a + (c.toNat - 48)) 0

/-- The atom matcher of the tests, `text::int(10).from_str().unwrapped().map(Expr::Literal)`:
consume a maximal non-empty run of decimal digits; on failure report the
unexpected character (or end of input) at the current position. -/
def intAtom : Matcher Char SimpleErr Expr := fun inp pos =>
  let ds := (inp.drop pos).takeWhile fun c => c.isDigit
  if ds.isEmpty then
    match inp[pos]? with
    | some c => .error ⟨some c, pos, pos + 1⟩
    | none => .error ⟨none, pos, pos⟩
  else
    .ok (.literal (Int.ofNat (digitsVal ds)), pos + ds.length)

/-- The infix operator table of the tests: the ordered `choice` of
`left_infix(just('+'), 0, Add)`, `left_infix(just('-'), 0, Sub)`,
`right_infix(just('*'), 1, Mul)`, `right_infix(just('/'), 1, Div)`. -/
def arithInfixOps : Matcher Char SimpleErr (Precedence × (Expr → Expr → Expr)) := fun inp pos =>
  match inp[pos]? with
  | some '+' => .ok ((leftInfixPrec 0, Expr.add), pos + 1)
  | some '-' => .ok ((leftInfixPrec 0, Expr.sub), pos + 1)
  | some '*' => .ok ((rightInfixPrec 1, Expr.mul), pos + 1)
  | some '/' => .ok ((rightInfixPrec 1, Expr.div), pos + 1)
  | some c => .error ⟨some c, pos, pos + 1⟩
  | none => .error ⟨none, pos, pos⟩

/-- The prefix operator table of the tests (`with_prefix_ops` test): the `choice`
of `prefix(just('-'), 1, Negate)` and `prefix(just('!'), 1, Negate)`. -/
def arithPrefixOps : Matcher Char SimpleErr (Precedence × (Expr → Expr)) := fun inp pos =>
  match inp[pos]? with
  | some '-' => .ok ((prefixPrec 1, Expr.negate), pos + 1)
  | some '!' => .ok ((prefixPrec 1, Expr.negate), pos + 1)
  | some c => .error ⟨some c, pos, pos + 1⟩
  | none => .error ⟨none, pos, pos⟩

/-- The composite parser of the `parser()` function of the tests. -/
def arithPratt : Pratt Char SimpleErr Expr :=
  ⟨intAtom, arithInfixOps⟩

/-- The composite parser of the `with_prefix_ops` test. -/
def arithPrefixPratt : PrefixPratt Char SimpleErr Expr :=
  ⟨intAtom, arithPrefixOps, arithInfixOps⟩

/-! ## A schematic token instance for operator-chain claims

Tokens are explicit atoms and operator symbols, so that chains
`a₁ op a₂ op … op aₙ` can be quantified over. -/

/-- Schematic tokens: an atom carrying a number, or an operator symbol. -/
inductive STok where
  | atomTok (n : Nat)
  | opTok (k : Nat)
deriving Repr, DecidableEq

/-- Schematic expression trees: literals and binary nodes labelled by the
operator symbol that built them. -/
inductive GExpr where
  | lit (n : Nat)
  | node (k : Nat) (l r : GExpr)
deriving Repr, DecidableEq

/-- The schematic atom matcher: exactly one `atomTok`. -/
def atomMatcherTok : Matcher STok Unit GExpr := fun inp pos =>
  match inp[pos]? with
  | some (.atomTok n) => .ok (.lit n, pos + 1)
  | _ => .error ()

/-- A schematic infix table declaring every operator symbol with
`left_infix` at the same strength `L`. -/
def leftOpsTok (L : Nat) : Matcher STok Unit (Precedence × (GExpr → GExpr → GExpr)) :=
  fun inp pos =>
    match inp[pos]? with
    | some (.opTok k) => .ok ((leftInfixPrec L, GExpr.node k), pos + 1)
    | _ => .error ()

/-- A schematic infix table declaring every operator symbol with
`right_infix` at the same strength `L`. -/
def rightOpsTok (L : Nat) : Matcher STok Unit (Precedence × (GExpr → GExpr → GExpr)) :=
  fun inp pos =>
    match inp[pos]? with
    | some (.opTok k) => .ok ((rightInfixPrec L, GExpr.node k), pos + 1)
    | _ => .error ()

/-- The composite parser for uniformly left-associative chains. -/
def leftChainPratt (L : Nat) : Pratt STok Unit GExpr :=
  ⟨atomMatcherTok, leftOpsTok L⟩

/-- The composite parser for uniformly right-associative chains. -/
def rightChainPratt (L : Nat) : Pratt STok Unit GExpr :=
  ⟨atomMatcherTok, rightOpsTok L⟩

/-- The tokens after the first atom of a chain: operator, atom, operator,
atom, … -/
def tailToks : List (Nat × Nat) → List STok
  | [] => []
  | (k, a) :: rest => .opTok k :: .atomTok a :: tailToks rest

/-- The token list of the chain `a₀ k₁ a₁ k₂ a₂ …`. -/
def chainToks (a0 : Nat) (rest : List (Nat × Nat)) : List STok :=
  .atomTok a0 :: tailToks rest

/-- Left-to-right grouping: `(...((acc k₁ a₁) k₂ a₂)...) kₙ aₙ`. -/
def leftNest : GExpr → List (Nat × Nat) → GExpr
  | acc, [] => acc
  | acc, (k, a) :: rest => leftNest (.node k acc (.lit a)) rest

/-- Right-to-left grouping: `a₀ k₁ (a₁ k₂ (a₂ ...))`. -/
def rightNest : Nat → List (Nat × Nat) → GExpr
  | a0, [] => .lit a0
  | a0, (k, a) :: rest => .node k (.lit a0) (rightNest a rest)

/-! ## Validate mode mirrors construct mode -/

/-- Forget the materialized value of a construct-mode result, keeping the
outcome and the final cursor position. -/
def eraseRes {Err O : Type} :
    Option (Except Err (O × Nat)) → Option (Except Err (Unit × Nat))
  | none => none
  | some (.error e) => some (.error e)
  | some (.ok (_, p)) => some (.ok ((), p))

/-- Forget the materialized value of an engine state. -/
def eraseSt {O : Type} : (Nat ⊕ (O × Nat)) → (Nat ⊕ (Unit × Nat))
  | .inl pos => .inl pos
  | .inr (_, pos) => .inr ((), pos)

lemma pratt_engine_check_emit {Tok Err O : Type} (P : Pratt Tok Err O) :
    ∀ (fuel : Nat) (κ : Option Strength) (inp : List Tok) (st : Nat ⊕ (O × Nat)),
      Pratt.engine P (Check O) fuel κ inp (eraseSt st) =
        eraseRes (Pratt.engine P (Emit O) fuel κ inp st) := by
  intro fuel
  induction fuel with
  | zero => intro κ inp st; rfl
  | succ fuel ih =>
    intro κ inp st
    match st with
    | .inl pos =>
      show Pratt.engine P (Check O) (fuel + 1) κ inp (.inl pos) = _
      cases h : P.atom inp pos with
      | error e => simp only [Pratt.engine, h]; rfl
      | ok vp =>
        obtain ⟨v, pos1⟩ := vp
        simp only [Pratt.engine, h]
        exact ih κ inp (.inr (v, pos1))
    | .inr lp =>
      obtain ⟨left, pos⟩ := lp
      show Pratt.engine P (Check O) (fuel + 1) κ inp (.inr ((), pos)) = _
      cases h : P.infix_ops inp pos with
      | error e => simp only [Pratt.engine, h]; rfl
      | ok pb =>
        obtain ⟨⟨prec, build⟩, pos1⟩ := pb
        by_cases hlt : strengthIsLt prec.strength_left κ = true
        · simp only [Pratt.engine, h, if_pos hlt]; rfl
        · simp only [Pratt.engine, h, if_neg hlt]
          have hin := ih (some prec.strength_right) inp (.inl pos1)
          rw [show (Sum.inl pos1 : Nat ⊕ (Unit × Nat)) = eraseSt (.inl pos1 : Nat ⊕ (O × Nat)) from rfl, hin]
          cases hr : Pratt.engine P (Emit O) fuel (some prec.strength_right) inp (.inl pos1) with
          | none => rfl
          | some r =>
            cases r with
            | error e => rfl
            | ok rp =>
              obtain ⟨right, pos2⟩ := rp
              exact ih κ inp (.inr ((Emit O).combine left right build, pos2))

lemma prefix_engine_check_emit {Tok Err O : Type} (P : PrefixPratt Tok Err O) :
    ∀ (fuel : Nat) (κ : Option Strength) (inp : List Tok) (st : Nat ⊕ (O × Nat)),
      PrefixPratt.engine P (Check O) fuel κ inp (eraseSt st) =
        eraseRes (PrefixPratt.engine P (Emit O) fuel κ inp st) := by
  intro fuel
  induction fuel with
  | zero => intro κ inp st; rfl
  | succ fuel ih =>
    intro κ inp st
    match st with
    | .inl pos =>
      show PrefixPratt.engine P (Check O) (fuel + 1) κ inp (.inl pos) = _
      cases h : P.prefix_ops inp pos with
      | error e =>
        cases ha : P.atom inp pos with
        | error e2 => simp only [PrefixPratt.engine, h, ha]; rfl
        | ok vp =>
          obtain ⟨v, pos1⟩ := vp
          simp only [PrefixPratt.engine, h, ha]
          exact ih κ inp (.inr (v, pos1))
      | ok pb =>
        obtain ⟨⟨prec, build⟩, pos1⟩ := pb
        simp only [PrefixPratt.engine, h]
        have hin := ih (some prec.strength_right) inp (.inl pos1)
        rw [show (Sum.inl pos1 : Nat ⊕ (Unit × Nat)) = eraseSt (.inl pos1 : Nat ⊕ (O × Nat)) from rfl, hin]
        cases hr : PrefixPratt.engine P (Emit O) fuel (some prec.strength_right) inp (.inl pos1) with
        | none => rfl
        | some r =>
          cases r with
          | error e => rfl
          | ok rp =>
            obtain ⟨right, pos2⟩ := rp
            exact ih κ inp (.inr ((Emit O).map right build, pos2))
    | .inr lp =>
      obtain ⟨left, pos⟩ := lp
      show PrefixPratt.engine P (Check O) (fuel + 1) κ inp (.inr ((), pos)) = _
      cases h : P.infix_ops inp pos with
      | error e => simp only [PrefixPratt.engine, h]; rfl
      | ok pb =>
        obtain ⟨⟨prec, build⟩, pos1⟩ := pb
        by_cases hlt : strengthIsLt prec.strength_left κ = true
        · simp only [PrefixPratt.engine, h, if_pos hlt]; rfl
        · simp only [PrefixPratt.engine, h, if_neg hlt]
          have hin := ih (some prec.strength_right) inp (.inl pos1)
          rw [show (Sum.inl pos1 : Nat ⊕ (Unit × Nat)) = eraseSt (.inl pos1 : Nat ⊕ (O × Nat)) from rfl, hin]
          cases hr : PrefixPratt.engine P (Emit O) fuel (some prec.strength_right) inp (.inl pos1) with
          | none => rfl
          | some r =>
            cases r with
            | error e => rfl
            | ok rp =>
              obtain ⟨right, pos2⟩ := rp
              exact ih κ inp (.inr ((Emit O).combine left right build, pos2))

/-- Claim C1: for every parser configuration and every input, running the
composite Pratt parser in validate (Check) mode makes the same accept/reject
decisions as construct (Emit) mode, succeeds if and only if it succeeds, and
leaves the cursor at exactly the same final position, for success and
failure alike: the validate-mode result is exactly the construct-mode result
with the materialized value erased.  This holds for `pratt_parse` at every
threshold and for the `go` entry point, in both the plain and the
prefix-enabled variant. -/
theorem c1_mode_equivalence :
    ∀ (Tok Err O : Type) (P : Pratt Tok Err O) (Q : PrefixPratt Tok Err O)
      (fuel : Nat) (κ : Option Strength) (inp : List Tok) (pos : Nat),
      P.pratt_parse (Check O) fuel κ inp pos =
          eraseRes (P.pratt_parse (Emit O) fuel κ inp pos) ∧
        P.go (Check O) fuel inp pos = eraseRes (P.go (Emit O) fuel inp pos) ∧
        Q.pratt_parse (Check O) fuel κ inp pos =
          eraseRes (Q.pratt_parse (Emit O) fuel κ inp pos) ∧
        Q.go (Check O) fuel inp pos = eraseRes (Q.go (Emit O) fuel inp pos) := by
  intro Tok Err O P Q fuel κ inp pos
  refine ⟨?_, ?_, ?_, ?_⟩
  · exact pratt_engine_check_emit P fuel κ inp (.inl pos)
  · exact pratt_engine_check_emit P fuel none inp (.inl pos)
  · exact prefix_engine_check_emit Q fuel κ inp (.inl pos)
  · exact prefix_engine_check_emit Q fuel none inp (.inl pos)

/-- Claim C4: with the test configuration (decimal-integer atoms, `+`/`-`
left-associative at strength 0, `*`/`/` right-associative at strength 1),
parsing `"1+2*3/4*5-6*7+8-9+10"` succeeds, consumes the whole input, and
produces `(((((1 + (2 * (3 / (4 * 5)))) - (6 * 7)) + 8) - 9) + 10)`. -/
theorem c4_complex_nesting :
    arithPratt.go (Emit Expr) 50 "1+2*3/4*5-6*7+8-9+10".toList 0 =
      some (.ok (Expr.add
        (Expr.sub
          (Expr.add
            (Expr.sub
              (Expr.add (Expr.literal 1)
                (Expr.mul (Expr.literal 2)
                  (Expr.div (Expr.literal 3)
                    (Expr.mul (Expr.literal 4) (Expr.literal 5)))))
              (Expr.mul (Expr.literal 6) (Expr.literal 7)))
            (Expr.literal 8))
          (Expr.literal 9))
        (Expr.literal 10), 20)) := rfl

/-! ## Associativity of uniform operator chains -/

lemma getElem_append_add {α : Type} (pre : List α) (t : List α) (i : Nat) :
    (pre ++ t)[pre.length + i]? = t[i]? := by
  rw [List.getElem?_append_right (Nat.le_add_right _ _)]
  congr 1
  omega

lemma getElem_append_cons {α : Type} (pre : List α) (x : α) (t : List α) :
    (pre ++ x :: t)[pre.length]? = some x := by
  have h := getElem_append_add pre (x :: t) 0
  simpa using h

/-- After one atom, a call whose threshold is the left-infix right-recursion
threshold stops: whatever follows, it returns just that atom. -/
lemma leftChain_operand (L : Nat) (inp : List STok) (pos a fuel : Nat)
    (h : inp[pos]? = some (.atomTok a)) (hf : 2 ≤ fuel) :
    Pratt.engine (leftChainPratt L) (Emit GExpr) fuel
        (some ((leftInfixPrec L).strength_right)) inp (.inl pos) =
      some (.ok (.lit a, pos + 1)) := by
  obtain ⟨g, rfl⟩ : ∃ g, fuel = g + 2 := ⟨fuel - 2, by omega⟩
  have hatom : (leftChainPratt L).atom inp pos = .ok (.lit a, pos + 1) := by
    show atomMatcherTok inp pos = _
    unfold atomMatcherTok
    rw [h]
  show Pratt.engine _ _ (g + 1 + 1) _ _ _ = _
  simp only [Pratt.engine, hatom]
  rcases hnext : inp[pos + 1]? with _ | t
  · have hop : (leftChainPratt L).infix_ops inp (pos + 1) = .error () := by
      show leftOpsTok L inp (pos + 1) = _
      unfold leftOpsTok
      rw [hnext]
    simp only [Pratt.engine, hop]
  · cases t with
    | atomTok n =>
      have hop : (leftChainPratt L).infix_ops inp (pos + 1) = .error () := by
        show leftOpsTok L inp (pos + 1) = _
        unfold leftOpsTok
        rw [hnext]
      simp only [Pratt.engine, hop]
    | opTok k =>
      have hop : (leftChainPratt L).infix_ops inp (pos + 1) =
          .ok ((leftInfixPrec L, GExpr.node k), pos + 1 + 1) := by
        show leftOpsTok L inp (pos + 1) = _
        unfold leftOpsTok
        rw [hnext]
      simp only [Pratt.engine, hop]
      rw [if_pos (show strengthIsLt (leftInfixPrec L).strength_left
        (some ((leftInfixPrec L).strength_right)) = true by
          simp [strengthIsLt, leftInfixPrec])]

/-- The infix loop over a uniformly left-associative tail accumulates
strictly left-to-right. -/
lemma leftChain_loop (L : Nat) (rest : List (Nat × Nat)) :
    ∀ (pre : List STok) (acc : GExpr) (fuel : Nat), 2 * rest.length + 1 ≤ fuel →
      Pratt.engine (leftChainPratt L) (Emit GExpr) fuel none
          (pre ++ tailToks rest) (.inr (acc, pre.length)) =
        some (.ok (leftNest acc rest, pre.length + (tailToks rest).length)) := by
  induction rest with
  | nil =>
    intro pre acc fuel hf
    obtain ⟨g, rfl⟩ : ∃ g, fuel = g + 1 := ⟨fuel - 1, by omega⟩
    have hop : (leftChainPratt L).infix_ops (pre ++ tailToks []) pre.length = .error () := by
      show leftOpsTok L _ _ = _
      unfold leftOpsTok
      rw [show (pre ++ tailToks [])[pre.length]? = none from by
        simp [tailToks, List.getElem?_eq_none]]
    simp only [Pratt.engine, hop]
    simp [leftNest, tailToks]
  | cons hd r ih =>
    obtain ⟨k, b⟩ := hd
    intro pre acc fuel hf
    obtain ⟨g, rfl⟩ : ∃ g, fuel = g + 1 := ⟨fuel - 1, by omega⟩
    simp only [List.length_cons] at hf
    have hop : (leftChainPratt L).infix_ops (pre ++ tailToks ((k, b) :: r)) pre.length =
        .ok ((leftInfixPrec L, GExpr.node k), pre.length + 1) := by
      show leftOpsTok L _ _ = _
      unfold leftOpsTok
      rw [show (pre ++ tailToks ((k, b) :: r))[pre.length]? = some (STok.opTok k) from by
        simp only [tailToks]
        exact getElem_append_cons _ _ _]
    simp only [Pratt.engine, hop]
    rw [if_neg (show ¬strengthIsLt (leftInfixPrec L).strength_left none = true by
      simp [strengthIsLt])]
    have hatom2 : (pre ++ tailToks ((k, b) :: r))[pre.length + 1]? = some (.atomTok b) := by
      simp only [tailToks]
      have h := getElem_append_add pre (STok.opTok k :: STok.atomTok b :: tailToks r) 1
      simpa using h
    rw [leftChain_operand L _ (pre.length + 1) b g hatom2 (by omega)]
    rw [show pre ++ tailToks ((k, b) :: r) =
      (pre ++ [STok.opTok k, STok.atomTok b]) ++ tailToks r from by simp [tailToks]]
    rw [show pre.length + 1 + 1 = (pre ++ [STok.opTok k, STok.atomTok b]).length from by simp]
    dsimp only
    rw [ih (pre ++ [STok.opTok k, STok.atomTok b]) (GExpr.node k acc (GExpr.lit b)) g (by omega)]
    rw [show (pre ++ [STok.opTok k, STok.atomTok b]).length + (tailToks r).length =
      pre.length + (tailToks ((k, b) :: r)).length from by
        simp only [tailToks, List.length_append, List.length_cons, List.length_nil]
        omega]
    rfl

/-- Claim C2: for every chain `a₁ op a₂ op … op aₙ` in which every operator
is declared with `left_infix` at the same strength `L`, the parse succeeds,
consumes the whole chain, and the resulting tree groups strictly
left-to-right; and the right-recursion threshold of the `left_infix` descriptor
is strictly tighter than its declared left strength. -/
theorem c2_left_chain (L a0 : Nat) (rest : List (Nat × Nat)) (fuel : Nat)
    (hf : 2 * rest.length + 2 ≤ fuel) :
    (leftChainPratt L).go (Emit GExpr) fuel (chainToks a0 rest) 0 =
        some (.ok (leftNest (.lit a0) rest, (chainToks a0 rest).length)) ∧
      (leftInfixPrec L).strength_left < (leftInfixPrec L).strength_right := by
  refine ⟨?_, by simp [leftInfixPrec]⟩
  obtain ⟨g, rfl⟩ : ∃ g, fuel = g + 1 := ⟨fuel - 1, by omega⟩
  have hatom : (leftChainPratt L).atom (chainToks a0 rest) 0 = .ok (.lit a0, 1) := by
    show atomMatcherTok _ _ = _
    unfold atomMatcherTok chainToks
    simp
  show Pratt.engine _ _ (g + 1) _ _ _ = _
  simp only [Pratt.engine, hatom]
  rw [show (chainToks a0 rest).length = 1 + (tailToks rest).length from by
    simp only [chainToks, List.length_cons]; omega]
  exact leftChain_loop L rest [STok.atomTok a0] (GExpr.lit a0) g (by omega)

/-- Witness for C2 at the concrete chain `1 op₅ 2 op₆ 3` with both operators
left-associative at strength 0. -/
theorem c2_left_chain_witness :
    (leftChainPratt 0).go (Emit GExpr) 10 (chainToks 1 [(5, 2), (6, 3)]) 0 =
        some (.ok (GExpr.node 6 (GExpr.node 5 (GExpr.lit 1) (GExpr.lit 2)) (GExpr.lit 3), 5)) ∧
      (leftInfixPrec 0).strength_left < (leftInfixPrec 0).strength_right :=
  c2_left_chain 0 1 [(5, 2), (6, 3)] 10 (by decide)

/-- A `pratt_parse` call over a uniformly right-associative chain, with an
unconstrained threshold or the right-infix right-recursion threshold,
consumes the whole remaining chain and nests it to the right. -/
lemma rightChain_parse (L : Nat) (rest : List (Nat × Nat)) :
    ∀ (pre : List STok) (a : Nat) (κ : Option Strength) (fuel : Nat),
      (κ = none ∨ κ = some ((rightInfixPrec L).strength_right)) →
      2 * rest.length + 2 ≤ fuel →
      Pratt.engine (rightChainPratt L) (Emit GExpr) fuel κ
          (pre ++ .atomTok a :: tailToks rest) (.inl pre.length) =
        some (.ok (rightNest a rest, pre.length + 1 + (tailToks rest).length)) := by
  induction rest with
  | nil =>
    intro pre a κ fuel hκ hf
    obtain ⟨g, rfl⟩ : ∃ g, fuel = g + 2 := ⟨fuel - 2, by omega⟩
    have hatom : (rightChainPratt L).atom (pre ++ .atomTok a :: tailToks []) pre.length =
        .ok (.lit a, pre.length + 1) := by
      show atomMatcherTok _ _ = _
      unfold atomMatcherTok
      rw [getElem_append_cons]
    show Pratt.engine _ _ (g + 1 + 1) _ _ _ = _
    simp only [Pratt.engine, hatom]
    have hop : (rightChainPratt L).infix_ops (pre ++ .atomTok a :: tailToks [])
        (pre.length + 1) = .error () := by
      show rightOpsTok L _ _ = _
      unfold rightOpsTok
      rw [show (pre ++ STok.atomTok a :: tailToks [])[pre.length + 1]? = none from by
        have h := getElem_append_add pre (STok.atomTok a :: tailToks []) 1
        simp only [tailToks] at h
        simp only [tailToks]
        rw [h]
        rfl]
    simp only [Pratt.engine, hop]
    simp [rightNest, tailToks]
  | cons hd r ih =>
    obtain ⟨k, b⟩ := hd
    intro pre a κ fuel hκ hf
    obtain ⟨g, rfl⟩ : ∃ g, fuel = g + 2 := ⟨fuel - 2, by omega⟩
    simp only [List.length_cons] at hf
    have hatom : (rightChainPratt L).atom (pre ++ .atomTok a :: tailToks ((k, b) :: r))
        pre.length = .ok (.lit a, pre.length + 1) := by
      show atomMatcherTok _ _ = _
      unfold atomMatcherTok
      rw [getElem_append_cons]
    show Pratt.engine _ _ (g + 1 + 1) _ _ _ = _
    simp only [Pratt.engine, hatom]
    have hop : (rightChainPratt L).infix_ops (pre ++ .atomTok a :: tailToks ((k, b) :: r))
        (pre.length + 1) = .ok ((rightInfixPrec L, GExpr.node k), pre.length + 1 + 1) := by
      show rightOpsTok L _ _ = _
      unfold rightOpsTok
      rw [show (pre ++ STok.atomTok a :: tailToks ((k, b) :: r))[pre.length + 1]? =
          some (STok.opTok k) from by
        have h := getElem_append_add pre (STok.atomTok a :: tailToks ((k, b) :: r)) 1
        simpa [tailToks] using h]
    simp only [Pratt.engine, hop]
    rw [if_neg (show ¬strengthIsLt (rightInfixPrec L).strength_left κ = true by
      rcases hκ with rfl | rfl
      · simp [strengthIsLt]
      · simp [strengthIsLt, rightInfixPrec])]
    rw [show pre ++ STok.atomTok a :: tailToks ((k, b) :: r) =
      (pre ++ [STok.atomTok a, STok.opTok k]) ++ STok.atomTok b :: tailToks r from by
        simp [tailToks]]
    rw [show pre.length + 1 + 1 = (pre ++ [STok.atomTok a, STok.opTok k]).length from by simp]
    rw [ih (pre ++ [STok.atomTok a, STok.opTok k]) b
      (some ((rightInfixPrec L).strength_right)) g (Or.inr rfl) (by omega)]
    dsimp only
    have hop2 : (rightChainPratt L).infix_ops
        ((pre ++ [STok.atomTok a, STok.opTok k]) ++ STok.atomTok b :: tailToks r)
        ((pre ++ [STok.atomTok a, STok.opTok k]).length + 1 + (tailToks r).length) =
        .error () := by
      show rightOpsTok L _ _ = _
      unfold rightOpsTok
      rw [show ((pre ++ [STok.atomTok a, STok.opTok k]) ++
          STok.atomTok b :: tailToks r)[(pre ++ [STok.atomTok a, STok.opTok k]).length + 1 +
            (tailToks r).length]? = none from by
        apply List.getElem?_eq_none
        simp only [List.length_append, List.length_cons, List.length_nil]
        omega]
    obtain ⟨g2, rfl⟩ : ∃ g2, g = g2 + 1 := ⟨g - 1, by omega⟩
    simp only [Pratt.engine, hop2]
    rw [show (pre ++ [STok.atomTok a, STok.opTok k]).length + 1 + (tailToks r).length =
      pre.length + 1 + (tailToks ((k, b) :: r)).length from by
        simp only [tailToks, List.length_append, List.length_cons, List.length_nil]
        omega]
    rfl

/-- Claim C3: for every chain `a₁ op a₂ op … op aₙ` in which every operator
is declared with `right_infix` at the same strength `L`, the parse succeeds,
consumes the whole chain, and the resulting tree groups strictly
right-to-left; and the right-recursion threshold of the `right_infix` descriptor
equals its declared left strength. -/
theorem c3_right_chain (L a0 : Nat) (rest : List (Nat × Nat)) (fuel : Nat)
    (hf : 2 * rest.length + 2 ≤ fuel) :
    (rightChainPratt L).go (Emit GExpr) fuel (chainToks a0 rest) 0 =
        some (.ok (rightNest a0 rest, (chainToks a0 rest).length)) ∧
      (rightInfixPrec L).strength_right = (rightInfixPrec L).strength_left := by
  refine ⟨?_, rfl⟩
  have h := rightChain_parse L rest [] a0 none fuel (Or.inl rfl) hf
  rw [show (chainToks a0 rest).length = 0 + 1 + (tailToks rest).length from by
    simp only [chainToks, List.length_cons]; omega]
  exact h

/-- Witness for C3 at the concrete chain `1 op₅ 2 op₆ 3` with both operators
right-associative at strength 0. -/
theorem c3_right_chain_witness :
    (rightChainPratt 0).go (Emit GExpr) 10 (chainToks 1 [(5, 2), (6, 3)]) 0 =
        some (.ok (GExpr.node 5 (GExpr.lit 1) (GExpr.node 6 (GExpr.lit 2) (GExpr.lit 3)), 5)) ∧
      (rightInfixPrec 0).strength_right = (rightInfixPrec 0).strength_left :=
  c3_right_chain 0 1 [(5, 2), (6, 3)] 10 (by decide)

/-! ## Soft versus hard failure in the infix loop -/

/-- Claim C5: inside the infix loop, once an accumulated left value exists,
the call returns that left value as success with the cursor rewound to the
checkpoint saved before the operator attempt, in the two soft cases: the
infix table fails to match, or it matches with a `strength_left` strictly
below the inherited threshold.  Neither case surfaces a failure. -/
theorem c5_soft_operator_absence :
    ∀ (Tok Err O : Type) (P : Pratt Tok Err O) (M : PMode O) (fuel : Nat)
      (κ : Option Strength) (inp : List Tok) (left : M.Out) (pos : Nat),
      (∀ e, P.infix_ops inp pos = .error e →
        P.infixLoop M (fuel + 1) κ inp left pos = some (.ok (left, pos))) ∧
      (∀ prec build pos1, P.infix_ops inp pos = .ok ((prec, build), pos1) →
        strengthIsLt prec.strength_left κ = true →
        P.infixLoop M (fuel + 1) κ inp left pos = some (.ok (left, pos))) := by
  intro Tok Err O P M fuel κ inp left pos
  constructor
  · intro e h
    simp only [Pratt.infixLoop, Pratt.engine, h]
  · intro prec build pos1 h hlt
    simp only [Pratt.infixLoop, Pratt.engine, h, if_pos hlt]

/-- Witness for C5: a missing operator (`atomTok` next) and an operator
binding too loosely (`strength_left 0` against threshold 5) both soft-exit
with the accumulated left value and the saved position. -/
theorem c5_soft_operator_absence_witness :
    (leftChainPratt 0).infixLoop (Emit GExpr) 3 none [STok.atomTok 7] (GExpr.lit 9) 0 =
        some (.ok (GExpr.lit 9, 0)) ∧
      (leftChainPratt 0).infixLoop (Emit GExpr) 3 (some 5) [STok.opTok 4] (GExpr.lit 9) 0 =
        some (.ok (GExpr.lit 9, 0)) := by
  constructor
  · exact (c5_soft_operator_absence STok Unit GExpr (leftChainPratt 0) (Emit GExpr) 2 none
      [STok.atomTok 7] (GExpr.lit 9) 0).1 () rfl
  · exact (c5_soft_operator_absence STok Unit GExpr (leftChainPratt 0) (Emit GExpr) 2 (some 5)
      [STok.opTok 4] (GExpr.lit 9) 0).2 (leftInfixPrec 0) (GExpr.node 4) 1 rfl rfl

/-- Claim C6: once an infix operator has matched and passed the threshold
check, a failure of the mandatory right operand makes the whole call fail
with exactly that failure, unaltered; concretely, `"1+"` fails with the atom
end-of-input failure of the atom matcher at position 2, just after the
consumed operator. -/
theorem c6_committed_operand_failure :
    (∀ (Tok Err O : Type) (P : Pratt Tok Err O) (M : PMode O) (fuel : Nat)
        (κ : Option Strength) (inp : List Tok) (left : M.Out) (pos pos1 : Nat)
        (prec : Precedence) (build : O → O → O) (e : Err),
        P.infix_ops inp pos = .ok ((prec, build), pos1) →
        strengthIsLt prec.strength_left κ = false →
        P.pratt_parse M fuel (some prec.strength_right) inp pos1 = some (.error e) →
        P.infixLoop M (fuel + 1) κ inp left pos = some (.error e)) ∧
      arithPratt.go (Emit Expr) 6 "1+".toList 0 = some (.error ⟨none, 2, 2⟩) := by
  constructor
  · intro Tok Err O P M fuel κ inp left pos pos1 prec build e h1 h2 h3
    have h3e : Pratt.engine P M fuel (some prec.strength_right) inp (.inl pos1) =
        some (.error e) := h3
    simp only [Pratt.infixLoop, Pratt.engine, h1, h2, Bool.false_eq_true, if_false, h3e]
  · rfl

/-- Witness for C6 at the input `"1+"`: the loop after the atom `1` commits
to `+` and forwards the operand failure reported at position 2. -/
theorem c6_committed_operand_failure_witness :
    arithPratt.infixLoop (Emit Expr) 5 none "1+".toList (Expr.literal 1) 1 =
      some (.error ⟨none, 2, 2⟩) :=
  (c6_committed_operand_failure).1 Char SimpleErr Expr arithPratt (Emit Expr) 4 none
    "1+".toList (Expr.literal 1) 1 2 (leftInfixPrec 0) Expr.add ⟨none, 2, 2⟩ rfl rfl rfl

/-- Claim C7: if the atom matcher fails at the parse start position (and, in
the prefix variant, no prefix operator matched), the result of the composite
parser is exactly the own failure of the atom matcher; on empty input the
parse fails with the failure of the atom matcher at position 0. -/
theorem c7_initial_atom_failure :
    (∀ (Tok Err O : Type) (P : Pratt Tok Err O) (M : PMode O) (fuel : Nat)
        (κ : Option Strength) (inp : List Tok) (pos : Nat) (e : Err),
        P.atom inp pos = .error e →
        P.pratt_parse M (fuel + 1) κ inp pos = some (.error e)) ∧
      (∀ (Tok Err O : Type) (Q : PrefixPratt Tok Err O) (M : PMode O) (fuel : Nat)
        (κ : Option Strength) (inp : List Tok) (pos : Nat) (e1 e : Err),
        Q.prefix_ops inp pos = .error e1 →
        Q.atom inp pos = .error e →
        Q.pratt_parse M (fuel + 1) κ inp pos = some (.error e)) ∧
      arithPratt.go (Emit Expr) 3 "".toList 0 = some (.error ⟨none, 0, 0⟩) ∧
      arithPrefixPratt.go (Emit Expr) 3 "".toList 0 = some (.error ⟨none, 0, 0⟩) := by
  refine ⟨?_, ?_, rfl, rfl⟩
  · intro Tok Err O P M fuel κ inp pos e h
    simp only [Pratt.pratt_parse, Pratt.engine, h]
  · intro Tok Err O Q M fuel κ inp pos e1 e h1 h2
    simp only [PrefixPratt.pratt_parse, PrefixPratt.engine, h1, h2]

/-- Witness for C7 on the empty input. -/
theorem c7_initial_atom_failure_witness :
    arithPratt.pratt_parse (Emit Expr) 2 none [] 0 = some (.error ⟨none, 0, 0⟩) ∧
      arithPrefixPratt.pratt_parse (Emit Expr) 2 none [] 0 = some (.error ⟨none, 0, 0⟩) :=
  ⟨(c7_initial_atom_failure).1 Char SimpleErr Expr arithPratt (Emit Expr) 1 none [] 0
      ⟨none, 0, 0⟩ rfl,
    (c7_initial_atom_failure).2.1 Char SimpleErr Expr arithPrefixPratt (Emit Expr) 1 none [] 0
      ⟨none, 0, 0⟩ ⟨none, 0, 0⟩ rfl rfl⟩

/-- Claim C8: the entry point always starts the recursion with the
unconstrained threshold `none`; the sentinel compares as weaker than every
concrete strength (no strength is strictly less than `none`); hence at the
outermost call every syntactically matching infix operator is accepted and
committed to, regardless of its declared strength. -/
theorem c8_entry_unconstrained :
    (∀ (Tok Err O : Type) (P : Pratt Tok Err O) (M : PMode O) (fuel : Nat)
        (inp : List Tok) (pos : Nat),
        P.go M fuel inp pos = P.pratt_parse M fuel none inp pos) ∧
      (∀ (Tok Err O : Type) (Q : PrefixPratt Tok Err O) (M : PMode O) (fuel : Nat)
        (inp : List Tok) (pos : Nat),
        Q.go M fuel inp pos = Q.pratt_parse M fuel none inp pos) ∧
      (∀ s : Strength, strengthIsLt s none = false) ∧
      (∀ (Tok Err O : Type) (P : Pratt Tok Err O) (M : PMode O) (fuel : Nat)
        (inp : List Tok) (left : M.Out) (pos pos1 : Nat) (prec : Precedence)
        (build : O → O → O),
        P.infix_ops inp pos = .ok ((prec, build), pos1) →
        P.infixLoop M (fuel + 1) none inp left pos =
          (match P.pratt_parse M fuel (some prec.strength_right) inp pos1 with
            | none => none
            | some (.error e) => some (.error e)
            | some (.ok (right, pos2)) =>
              P.infixLoop M fuel none inp (M.combine left right build) pos2)) := by
  refine ⟨fun _ _ _ _ _ _ _ _ => rfl, fun _ _ _ _ _ _ _ _ => rfl, fun _ => rfl, ?_⟩
  intro Tok Err O P M fuel inp left pos pos1 prec build h
  simp only [Pratt.infixLoop, Pratt.pratt_parse, Pratt.engine, h]
  rw [if_neg (show ¬strengthIsLt prec.strength_left none = true by simp [strengthIsLt])]

/-- Witness for C8: at the outermost (unconstrained) call the first matching
operator is committed to and the loop proceeds. -/
theorem c8_entry_unconstrained_witness :
    (leftChainPratt 0).infixLoop (Emit GExpr) 4 none [STok.opTok 1, STok.atomTok 5]
      (GExpr.lit 9) 0 = some (.ok (GExpr.node 1 (GExpr.lit 9) (GExpr.lit 5), 2)) := by
  rw [(c8_entry_unconstrained).2.2.2 STok Unit GExpr (leftChainPratt 0) (Emit GExpr) 3
    [STok.opTok 1, STok.atomTok 5] (GExpr.lit 9) 0 1 (leftInfixPrec 0) (GExpr.node 1) rfl]
  rfl

/-- Claim C9: in the prefix-enabled variant, every call first attempts the
prefix table unconditionally (for every inherited threshold `κ`); on a match
the operand is parsed at the `strength_right` of the operator and the prefix
builder is applied through the mode (operand failure propagating
unaltered); on no match the cursor is rewound and a single atom is parsed;
concretely `"-1+2*3"` parses to `((-1) + (2 * 3))`. -/
theorem c9_prefix_unconditional :
    (∀ (Tok Err O : Type) (Q : PrefixPratt Tok Err O) (M : PMode O) (fuel : Nat)
        (κ : Option Strength) (inp : List Tok) (pos pos1 : Nat) (prec : Precedence)
        (build : O → O),
        Q.prefix_ops inp pos = .ok ((prec, build), pos1) →
        Q.pratt_parse M (fuel + 1) κ inp pos =
          (match Q.pratt_parse M fuel (some prec.strength_right) inp pos1 with
            | none => none
            | some (.error e) => some (.error e)
            | some (.ok (right, pos2)) =>
              Q.infixLoop M fuel κ inp (M.map right build) pos2)) ∧
      (∀ (Tok Err O : Type) (Q : PrefixPratt Tok Err O) (M : PMode O) (fuel : Nat)
        (κ : Option Strength) (inp : List Tok) (pos : Nat) (e1 : Err),
        Q.prefix_ops inp pos = .error e1 →
        Q.pratt_parse M (fuel + 1) κ inp pos =
          (match Q.atom inp pos with
            | .error e => some (.error e)
            | .ok (v, pos1) => Q.infixLoop M fuel κ inp (M.wrap v) pos1)) ∧
      arithPrefixPratt.go (Emit Expr) 20 "-1+2*3".toList 0 =
        some (.ok (Expr.add (Expr.negate (Expr.literal 1))
          (Expr.mul (Expr.literal 2) (Expr.literal 3)), 6)) := by
  refine ⟨?_, ?_, rfl⟩
  · intro Tok Err O Q M fuel κ inp pos pos1 prec build h
    simp only [PrefixPratt.pratt_parse, PrefixPratt.engine, h]
    cases hin : PrefixPratt.engine Q M fuel (some prec.strength_right) inp (.inl pos1) with
    | none => rfl
    | some r =>
      cases r with
      | error e => rfl
      | ok rp =>
        obtain ⟨right, pos2⟩ := rp
        rfl
  · intro Tok Err O Q M fuel κ inp pos e1 h1
    simp only [PrefixPratt.pratt_parse, PrefixPratt.engine, h1]
    cases ha : Q.atom inp pos with
    | error e => rfl
    | ok vp =>
      obtain ⟨v, pos1⟩ := vp
      rfl

/-- Witness for C9 at `"-1+2*3"`: the prefix `-` matches first, its operand
is parsed at the right-recursion threshold of the prefix operator, and the
resulting parse yields `((-1) + (2 * 3))`. -/
theorem c9_prefix_unconditional_witness :
    arithPrefixPratt.pratt_parse (Emit Expr) 10 none "-1+2*3".toList 0 =
      some (.ok (Expr.add (Expr.negate (Expr.literal 1))
        (Expr.mul (Expr.literal 2) (Expr.literal 3)), 6)) := by
  rw [(c9_prefix_unconditional).1 Char SimpleErr Expr arithPrefixPratt (Emit Expr) 9 none
    "-1+2*3".toList 0 1 (prefixPrec 1) Expr.negate rfl]
  rfl

/-! ## Termination under a cursor-progress precondition -/

/-- A matcher strictly shrinks the remaining input whenever it succeeds. -/
def Advances {Tok Err α : Type} (m : Matcher Tok Err α) : Prop :=
  ∀ (inp : List Tok) (pos : Nat) (v : α) (pos2 : Nat),
    m inp pos = .ok (v, pos2) → inp.length - pos2 < inp.length - pos

/-- If the atom and infix matchers advance, a successful engine run shrinks
the remaining input: strictly from a fresh-call state, weakly from a loop
state. -/
lemma pratt_engine_advance {Tok Err O : Type} (P : Pratt Tok Err O) (M : PMode O)
    (hA : Advances P.atom) (hI : Advances P.infix_ops) :
    ∀ (fuel : Nat) (κ : Option Strength) (inp : List Tok),
      (∀ pos r p2, Pratt.engine P M fuel κ inp (.inl pos) = some (.ok (r, p2)) →
        inp.length - p2 < inp.length - pos) ∧
      (∀ left pos r p2, Pratt.engine P M fuel κ inp (.inr (left, pos)) = some (.ok (r, p2)) →
        inp.length - p2 ≤ inp.length - pos) := by
  intro fuel
  induction fuel with
  | zero =>
    refine fun κ inp => ⟨fun pos r p2 h => ?_, fun left pos r p2 h => ?_⟩ <;>
      simp [Pratt.engine] at h
  | succ fuel ih =>
    intro κ inp
    constructor
    · intro pos r p2 h
      simp only [Pratt.engine] at h
      split at h
      · simp at h
      · rename_i v pos1 heq
        have h1 := (ih κ inp).2 (M.wrap v) pos1 r p2 h
        have h2 := hA inp pos v pos1 heq
        omega
    · intro left pos r p2 h
      simp only [Pratt.engine] at h
      split at h
      · simp only [Option.some.injEq, Except.ok.injEq, Prod.mk.injEq] at h
        obtain ⟨-, rfl⟩ := h
        exact Nat.le_refl _
      · rename_i prec build pos1 heq
        split at h
        · simp only [Option.some.injEq, Except.ok.injEq, Prod.mk.injEq] at h
          obtain ⟨-, rfl⟩ := h
          exact Nat.le_refl _
        · split at h
          · simp at h
          · simp at h
          · rename_i r1 pm hin
            have h1 := (ih κ inp).2 (M.combine left r1 build) pm r p2 h
            have h2 := (ih (some prec.strength_right) inp).1 pos1 r1 pm hin
            have h3 := hI inp pos (prec, build) pos1 heq
            omega

/-- Same advance property for the prefix-enabled engine. -/
lemma prefix_engine_advance {Tok Err O : Type} (P : PrefixPratt Tok Err O) (M : PMode O)
    (hA : Advances P.atom) (hPre : Advances P.prefix_ops) (hI : Advances P.infix_ops) :
    ∀ (fuel : Nat) (κ : Option Strength) (inp : List Tok),
      (∀ pos r p2, PrefixPratt.engine P M fuel κ inp (.inl pos) = some (.ok (r, p2)) →
        inp.length - p2 < inp.length - pos) ∧
      (∀ left pos r p2,
        PrefixPratt.engine P M fuel κ inp (.inr (left, pos)) = some (.ok (r, p2)) →
        inp.length - p2 ≤ inp.length - pos) := by
  intro fuel
  induction fuel with
  | zero =>
    refine fun κ inp => ⟨fun pos r p2 h => ?_, fun left pos r p2 h => ?_⟩ <;>
      simp [PrefixPratt.engine] at h
  | succ fuel ih =>
    intro κ inp
    constructor
    · intro pos r p2 h
      simp only [PrefixPratt.engine] at h
      split at h
      · rename_i prec build pos1 heq
        split at h
        · simp at h
        · simp at h
        · rename_i r1 pm hin
          have h1 := (ih κ inp).2 (M.map r1 build) pm r p2 h
          have h2 := (ih (some prec.strength_right) inp).1 pos1 r1 pm hin
          have h3 := hPre inp pos (prec, build) pos1 heq
          omega
      · split at h
        · simp at h
        · rename_i heq2 v pos1 ha
          have h1 := (ih κ inp).2 (M.wrap v) pos1 r p2 h
          have h2 := hA inp pos v pos1 ha
          omega
    · intro left pos r p2 h
      simp only [PrefixPratt.engine] at h
      split at h
      · simp only [Option.some.injEq, Except.ok.injEq, Prod.mk.injEq] at h
        obtain ⟨-, rfl⟩ := h
        exact Nat.le_refl _
      · rename_i prec build pos1 heq
        split at h
        · simp only [Option.some.injEq, Except.ok.injEq, Prod.mk.injEq] at h
          obtain ⟨-, rfl⟩ := h
          exact Nat.le_refl _
        · split at h
          · simp at h
          · simp at h
          · rename_i r1 pm hin
            have h1 := (ih κ inp).2 (M.combine left r1 build) pm r p2 h
            have h2 := (ih (some prec.strength_right) inp).1 pos1 r1 pm hin
            have h3 := hI inp pos (prec, build) pos1 heq
            omega

/-- If the atom and infix matchers advance, the plain engine finishes within
fuel linear in the remaining input. -/
lemma pratt_engine_total {Tok Err O : Type} (P : Pratt Tok Err O) (M : PMode O)
    (hA : Advances P.atom) (hI : Advances P.infix_ops) (inp : List Tok) :
    ∀ (n : Nat),
      (∀ κ pos fuel, inp.length - pos = n → 2 * n + 2 ≤ fuel →
        (Pratt.engine P M fuel κ inp (.inl pos)).isSome = true) ∧
      (∀ κ (left : M.Out) pos fuel, inp.length - pos = n → 2 * n + 1 ≤ fuel →
        (Pratt.engine P M fuel κ inp (.inr (left, pos))).isSome = true) := by
  intro n
  induction n using Nat.strong_induction_on with
  | _ n ih =>
    constructor
    · intro κ pos fuel hn hf
      obtain ⟨g, rfl⟩ : ∃ g, fuel = g + 1 := ⟨fuel - 1, by omega⟩
      simp only [Pratt.engine]
      cases ha : P.atom inp pos with
      | error e => simp
      | ok vp =>
        obtain ⟨v, pos1⟩ := vp
        simp only
        have hlt : inp.length - pos1 < n := hn ▸ hA inp pos v pos1 ha
        exact (ih _ hlt).2 κ (M.wrap v) pos1 g rfl (by omega)
    · intro κ left pos fuel hn hf
      obtain ⟨g, rfl⟩ : ∃ g, fuel = g + 1 := ⟨fuel - 1, by omega⟩
      simp only [Pratt.engine]
      cases hi : P.infix_ops inp pos with
      | error e => simp
      | ok pb =>
        obtain ⟨⟨prec, build⟩, pos1⟩ := pb
        simp only
        by_cases hlt : strengthIsLt prec.strength_left κ = true
        · rw [if_pos hlt]
          rfl
        · rw [if_neg hlt]
          have hp1 : inp.length - pos1 < n := hn ▸ hI inp pos (prec, build) pos1 hi
          have htot := (ih _ hp1).1 (some prec.strength_right) pos1 g rfl (by omega)
          rw [Option.isSome_iff_exists] at htot
          obtain ⟨val, hval⟩ := htot
          rw [hval]
          cases val with
          | error e => rfl
          | ok rp =>
            obtain ⟨r1, pm⟩ := rp
            have hadv :=
              (pratt_engine_advance P M hA hI g (some prec.strength_right) inp).1
                pos1 r1 pm hval
            exact (ih (inp.length - pm) (by omega)).2 κ (M.combine left r1 build) pm g
              (by omega) (by omega)

/-- If the atom, prefix and infix matchers advance, the prefix-enabled
engine finishes within fuel linear in the remaining input. -/
lemma prefix_engine_total {Tok Err O : Type} (P : PrefixPratt Tok Err O) (M : PMode O)
    (hA : Advances P.atom) (hPre : Advances P.prefix_ops) (hI : Advances P.infix_ops)
    (inp : List Tok) :
    ∀ (n : Nat),
      (∀ κ pos fuel, inp.length - pos = n → 2 * n + 2 ≤ fuel →
        (PrefixPratt.engine P M fuel κ inp (.inl pos)).isSome = true) ∧
      (∀ κ (left : M.Out) pos fuel, inp.length - pos = n → 2 * n + 1 ≤ fuel →
        (PrefixPratt.engine P M fuel κ inp (.inr (left, pos))).isSome = true) := by
  intro n
  induction n using Nat.strong_induction_on with
  | _ n ih =>
    constructor
    · intro κ pos fuel hn hf
      obtain ⟨g, rfl⟩ : ∃ g, fuel = g + 1 := ⟨fuel - 1, by omega⟩
      simp only [PrefixPratt.engine]
      cases hp : P.prefix_ops inp pos with
      | ok pb =>
        obtain ⟨⟨prec, build⟩, pos1⟩ := pb
        simp only
        have hp1 : inp.length - pos1 < n := hn ▸ hPre inp pos (prec, build) pos1 hp
        have htot := (ih _ hp1).1 (some prec.strength_right) pos1 g rfl (by omega)
        rw [Option.isSome_iff_exists] at htot
        obtain ⟨val, hval⟩ := htot
        rw [hval]
        cases val with
        | error e => rfl
        | ok rp =>
          obtain ⟨r1, pm⟩ := rp
          have hadv :=
            (prefix_engine_advance P M hA hPre hI g (some prec.strength_right) inp).1
              pos1 r1 pm hval
          exact (ih (inp.length - pm) (by omega)).2 κ (M.map r1 build) pm g
            (by omega) (by omega)
      | error e1 =>
        simp only
        cases ha : P.atom inp pos with
        | error e => simp
        | ok vp =>
          obtain ⟨v, pos1⟩ := vp
          simp only
          have hlt : inp.length - pos1 < n := hn ▸ hA inp pos v pos1 ha
          exact (ih _ hlt).2 κ (M.wrap v) pos1 g rfl (by omega)
    · intro κ left pos fuel hn hf
      obtain ⟨g, rfl⟩ : ∃ g, fuel = g + 1 := ⟨fuel - 1, by omega⟩
      simp only [PrefixPratt.engine]
      cases hi : P.infix_ops inp pos with
      | error e => simp
      | ok pb =>
        obtain ⟨⟨prec, build⟩, pos1⟩ := pb
        simp only
        by_cases hlt : strengthIsLt prec.strength_left κ = true
        · rw [if_pos hlt]
          rfl
        · rw [if_neg hlt]
          have hp1 : inp.length - pos1 < n := hn ▸ hI inp pos (prec, build) pos1 hi
          have htot := (ih _ hp1).1 (some prec.strength_right) pos1 g rfl (by omega)
          rw [Option.isSome_iff_exists] at htot
          obtain ⟨val, hval⟩ := htot
          rw [hval]
          cases val with
          | error e => rfl
          | ok rp =>
            obtain ⟨r1, pm⟩ := rp
            have hadv :=
              (prefix_engine_advance P M hA hPre hI g (some prec.strength_right) inp).1
                pos1 r1 pm hval
            exact (ih (inp.length - pm) (by omega)).2 κ (M.combine left r1 build) pm g
              (by omega) (by omega)

/-- An atom matcher that succeeds without consuming anything. -/
def zwAtomTok : Matcher STok Unit GExpr := fun _ pos => .ok (.lit 0, pos)

/-- An infix table that succeeds without consuming anything, declared (via
`right_infix`) so that its `strength_left` is never below its own
right-recursion threshold. -/
def zwOpsTok : Matcher STok Unit (Precedence × (GExpr → GExpr → GExpr)) :=
  fun _ pos => .ok ((rightInfixPrec 0, GExpr.node 0), pos)

/-- Zero-width atom matcher together with zero-width infix table. -/
def zwBothPratt : Pratt STok Unit GExpr :=
  ⟨zwAtomTok, zwOpsTok⟩

/-- Zero-width infix table, but an honest atom matcher that consumes one
token per success. -/
def zwInfixPratt : Pratt STok Unit GExpr :=
  ⟨atomMatcherTok, zwOpsTok⟩

/-- With a zero-width atom matcher and a zero-width infix table, the parse
really does run forever: no amount of fuel finishes it. -/
lemma zwBoth_diverges :
    ∀ (fuel : Nat) (κ : Option Strength) (inp : List STok) (st : Nat ⊕ (GExpr × Nat)),
      (κ = none ∨ κ = some 0) →
      Pratt.engine zwBothPratt (Emit GExpr) fuel κ inp st = none := by
  intro fuel
  induction fuel with
  | zero => intro κ inp st hκ; rfl
  | succ fuel ih =>
    intro κ inp st hκ
    match st with
    | .inl pos =>
      show Pratt.engine _ _ (fuel + 1) _ _ _ = _
      simp only [Pratt.engine]
      exact ih κ inp (.inr ((Emit GExpr).wrap (GExpr.lit 0), pos)) hκ
    | .inr lp =>
      obtain ⟨left, pos⟩ := lp
      show Pratt.engine _ _ (fuel + 1) _ _ _ = _
      simp only [Pratt.engine]
      have hop : zwBothPratt.infix_ops inp pos =
          .ok ((rightInfixPrec 0, GExpr.node 0), pos) := rfl
      simp only [hop]
      have hin := ih (some ((rightInfixPrec 0).strength_right)) inp (.inl pos) (Or.inr rfl)
      rcases hκ with rfl | rfl
      · rw [if_neg (show ¬strengthIsLt (rightInfixPrec 0).strength_left none = true by
          simp [strengthIsLt])]
        rw [hin]
      · rw [if_neg (show ¬strengthIsLt (rightInfixPrec 0).strength_left (some 0) = true by
          simp [strengthIsLt, rightInfixPrec])]
        rw [hin]

lemma atomMatcherTok_advances : Advances atomMatcherTok := by
  intro inp pos v p2 h
  unfold atomMatcherTok at h
  split at h
  · rename_i n heq
    simp only [Except.ok.injEq, Prod.mk.injEq] at h
    obtain ⟨-, rfl⟩ := h
    obtain ⟨hl, -⟩ := List.getElem?_eq_some.mp heq
    omega
  · simp at h

lemma leftOpsTok_advances (L : Nat) : Advances (leftOpsTok L) := by
  intro inp pos v p2 h
  unfold leftOpsTok at h
  split at h
  · rename_i k heq
    simp only [Except.ok.injEq, Prod.mk.injEq] at h
    obtain ⟨-, rfl⟩ := h
    obtain ⟨hl, -⟩ := List.getElem?_eq_some.mp heq
    omega
  · simp at h

/-- A schematic prefix table: every operator symbol is a prefix operator. -/
def prefixOpsTok : Matcher STok Unit (Precedence × (GExpr → GExpr)) := fun inp pos =>
  match inp[pos]? with
  | some (.opTok k) => .ok ((prefixPrec k, GExpr.node k (GExpr.lit 0)), pos + 1)
  | _ => .error ()

/-- A prefix-enabled composite parser over the schematic tokens. -/
def tokPrefixPratt : PrefixPratt STok Unit GExpr :=
  ⟨atomMatcherTok, prefixOpsTok, leftOpsTok 0⟩

lemma prefixOpsTok_advances : Advances prefixOpsTok := by
  intro inp pos v p2 h
  unfold prefixOpsTok at h
  split at h
  · rename_i k heq
    simp only [Except.ok.injEq, Prod.mk.injEq] at h
    obtain ⟨-, rfl⟩ := h
    obtain ⟨hl, -⟩ := List.getElem?_eq_some.mp heq
    omega
  · simp at h

/-- Claim C10 (amended): under the precondition that every successful match
of the atom matcher, the prefix operator table, and the infix operator table
strictly shrinks the remaining input, `pratt_parse` terminates on every
finite input, in both variants, with fuel linear in the remaining input;
and without the precondition the parse can really run forever — when both
the atom matcher and the infix table succeed without consuming, no fuel
finishes the parse.  (A zero-width infix success alone, with a consuming
atom matcher, does not make the loop run forever; see the counterexample.) -/
theorem c10_termination_under_progress :
    (∀ (Tok Err O : Type) (P : Pratt Tok Err O) (M : PMode O),
      Advances P.atom → Advances P.infix_ops →
      ∀ (inp : List Tok) (κ : Option Strength) (pos fuel : Nat),
        2 * (inp.length - pos) + 2 ≤ fuel →
        (P.pratt_parse M fuel κ inp pos).isSome = true) ∧
      (∀ (Tok Err O : Type) (Q : PrefixPratt Tok Err O) (M : PMode O),
        Advances Q.atom → Advances Q.prefix_ops → Advances Q.infix_ops →
        ∀ (inp : List Tok) (κ : Option Strength) (pos fuel : Nat),
          2 * (inp.length - pos) + 2 ≤ fuel →
          (Q.pratt_parse M fuel κ inp pos).isSome = true) ∧
      (∀ fuel : Nat,
        zwBothPratt.pratt_parse (Emit GExpr) fuel none [STok.atomTok 1] 0 = none) := by
  refine ⟨?_, ?_, ?_⟩
  · intro Tok Err O P M hA hI inp κ pos fuel hf
    exact (pratt_engine_total P M hA hI inp (inp.length - pos)).1 κ pos fuel rfl hf
  · intro Tok Err O Q M hA hPre hI inp κ pos fuel hf
    exact (prefix_engine_total Q M hA hPre hI inp (inp.length - pos)).1 κ pos fuel rfl hf
  · intro fuel
    exact zwBoth_diverges fuel none [STok.atomTok 1] (.inl 0) (Or.inl rfl)

/-- Counterexample to C10 as stated: an infix matcher that succeeds while
consuming nothing, at a strength never below the threshold it induces, does
NOT make the infix loop run forever when the atom matcher consumes input.
On the input `[atomTok 1]` the parse terminates — it returns the committed
operand failure at end of input — and the result is stable as the fuel
grows. -/
theorem c10_zero_width_infix_terminates :
    zwInfixPratt.pratt_parse (Emit GExpr) 5 none [STok.atomTok 1] 0 =
        some (.error ()) ∧
      zwInfixPratt.pratt_parse (Emit GExpr) 500 none [STok.atomTok 1] 0 =
        some (.error ()) :=
  ⟨rfl, rfl⟩

/-- Witness for C10: both termination statements applied at concrete
advancing parser configurations and inputs. -/
theorem c10_termination_under_progress_witness :
    ((leftChainPratt 0).pratt_parse (Emit GExpr) 8 none (chainToks 1 [(2, 3)]) 0).isSome =
        true ∧
      (tokPrefixPratt.pratt_parse (Emit GExpr) 6 none [STok.opTok 1, STok.atomTok 5] 0).isSome =
        true :=
  ⟨(c10_termination_under_progress).1 STok Unit GExpr (leftChainPratt 0) (Emit GExpr)
      atomMatcherTok_advances (leftOpsTok_advances 0) (chainToks 1 [(2, 3)]) none 0 8
      (by decide),
    (c10_termination_under_progress).2.1 STok Unit GExpr tokPrefixPratt (Emit GExpr)
      atomMatcherTok_advances prefixOpsTok_advances (leftOpsTok_advances 0)
      [STok.opTok 1, STok.atomTok 5] none 0 6 (by decide)⟩
